import Mathlib

/-!
Verification development for the `howis` integrity-checking tool
(`src/main.rs`).  The program's data model and operations are embedded
shallowly: strings become `List Char`, file bytes become `List Nat`,
the curl transfer becomes an explicit list of received chunks, and the
record ("ledger") file becomes its character content.
-/

set_option autoImplicit false

namespace Howis

/-- The per-item outcome, as classified by `main`: `good`, `bad`, `n/a`
(printed for unmatched probed names), or `error` with a message. -/
inductive Outcome where
  | good
  | bad
  | notAvailable
  | error (msg : List Char)
  deriving DecidableEq

/-- The `Counter` struct of `main.rs`: four counters `good`, `bad`, `na`,
`error` (there `u32`; increments in the claims never reach the wrap-around,
so `Nat` is used). -/
structure Counter where
  good : Nat
  bad : Nat
  na : Nat
  error : Nat
  deriving DecidableEq

/-- Model of the `HashMap<String, String>` in `Source::List`: an
association list of (name, url) pairs; the map invariant (distinct keys)
is carried as a separate hypothesis where needed. -/
abbrev Table := List (List Char × List Char)

/-- `HashMap::remove`'s lookup half: first value stored under the key. -/
def Table.lookupName : Table → List Char → Option (List Char)
  | [], _ => none
  | p :: rest, n => if p.1 = n then some p.2 else Table.lookupName rest n

/-- `HashMap::remove`'s removal half: drop the entry stored under the key
(all entries with that key, which coincides under the distinct-key
invariant). -/
def Table.eraseName : Table → List Char → Table
  | [], _ => []
  | p :: rest, n =>
    if p.1 = n then Table.eraseName rest n else p :: Table.eraseName rest n

/-- `str::replace("\x7b\x7d", name)` on the template pattern: every
non-overlapping occurrence of the two-character marker is replaced by
`name`, scanning left to right (the replacement text is not rescanned). -/
def replaceMarker : List Char → List Char → List Char
  | [], _ => []
  | [c], _ => [c]
  | c :: d :: rest, name =>
    if c = '\x7b' ∧ d = '\x7d' then name ++ replaceMarker rest name
    else c :: replaceMarker (d :: rest) name

/-- The `Source` enum of `main.rs`: a finite consumable table (`List`)
or an inexhaustible template string (`Template`). -/
inductive Source where
  | list (map : Table)
  | template (pattern : List Char)
  deriving DecidableEq

/-- `Source::provide`: for `List`, `map.remove(name)` (returns the stored
url and removes the entry); for `Template`, `template.replace("\x7b\x7d", name)`,
leaving the source unchanged.  The returned pair is (result, source after
the call), making the mutation of `&mut self` explicit. -/
def Source.provide : Source → List Char → Option (List Char) × Source
  | .list m, name => (Table.lookupName m name, .list (Table.eraseName m name))
  | .template t, name => (some (replaceMarker t name), .template t)

/-- `Source::remove`: `map.remove(name)` for `List`, no-op for `Template`. -/
def Source.remove : Source → List Char → Source
  | .list m, name => .list (Table.eraseName m name)
  | .template t, _ => .template t

/-- `Source::into_rest`: the remaining (name, url) pairs of a `List`
source; empty for `Template`. -/
def Source.intoRest : Source → List (List Char × List Char)
  | .list m => m
  | .template _ => []

/-- Whether a source still stores a url under `name` (a `List` source
contains the key; a `Template` stores nothing). -/
def Source.hasName : Source → List Char → Bool
  | .list m, n => (Table.lookupName m n).isSome
  | .template _, _ => false

/-- The `HashMap` distinct-keys invariant for a `List` source. -/
abbrev Source.keysNodup : Source → Prop
  | .list m => (m.map Prod.fst).Nodup
  | .template _ => True

/-- Name derivation in `Source::from_str`: `rsplit_once('/')` keeps the
part after the last `'/'` (the whole string when there is none), which is
exactly the maximal `'/'`-free suffix; `split_once('?')` then keeps the
part before the first `'?'` (the whole string when there is none), which
is exactly the maximal `'?'`-free prefix. -/
def deriveName (url : List Char) : List Char :=
  ((url.reverse.takeWhile (fun c => c ≠ '/')).reverse).takeWhile (fun c => c ≠ '?')

/-- `pat.isPrefixOf l` in executable form: does `l` start with `pat`?
(Rust `str::starts_with`.) -/
def leadsWith : List Char → List Char → Bool
  | [], _ => true
  | _ :: _, [] => false
  | p :: ps, c :: cs => p == c && leadsWith ps cs

/-- Rust `str::contains(&needle)`: does `needle` occur as a contiguous
substring of `hay`? -/
def containsSeq : List Char → List Char → Bool
  | [], needle => leadsWith needle []
  | c :: t, needle => leadsWith needle (c :: t) || containsSeq t needle

/-- Rust `str::split_once(": ")`: split at the first occurrence of the
two-character separator `':'` `' '`, returning the parts before and after
it, or `none` when the separator does not occur. -/
def splitOnceColonSpace : List Char → Option (List Char × List Char)
  | [] => none
  | c :: rest =>
    if c = ':' ∧ rest.head? = some ' ' then some ([], rest.tail)
    else
      match splitOnceColonSpace rest with
      | some p => some (c :: p.1, p.2)
      | none => none

/-- The end-of-line stripping in `load_rec`: pop a trailing `'\n'`, and
only then a trailing `'\r'` left by a CRLF line. -/
def stripEol (l : List Char) : List Char :=
  if l.getLast? = some '\n' then
    if l.dropLast.getLast? = some '\r' then l.dropLast.dropLast else l.dropLast
  else l

/-- `HashSet::insert` on the replayed-names set, modelled as a
duplicate-free list. -/
def insertName (s : List (List Char)) (n : List Char) : List (List Char) :=
  if n ∈ s then s else s ++ [n]

/-- The `match status` in `load_rec`: exact match on `good` / `bad` /
`n/a` bumps the matching counter, any status starting with `error` bumps
the error counter, anything else bumps nothing. -/
def bumpStatus (c : Counter) (status : List Char) : Counter :=
  if status = "good".data then { c with good := c.good + 1 }
  else if status = "bad".data then { c with bad := c.bad + 1 }
  else if status = "n/a".data then { c with na := c.na + 1 }
  else if leadsWith "error".data status then { c with error := c.error + 1 }
  else c

/-- State built by `load_rec`: the replayed-name set (`res` in the code),
the source after the replayed `Source::remove` calls, and the seeded
counters. -/
structure RecState where
  skip : List (List Char)
  src : Source
  counter : Counter
  deriving DecidableEq

/-- One iteration of the `load_rec` loop on a raw line (as delivered by
`read_line`, i.e. including its newline when one was present): strip the
end of line, `split_once(": ")`; on success insert the name, remove it
from the source and classify the status; otherwise leave everything
unchanged. -/
def processLine (st : RecState) (raw : List Char) : RecState :=
  match splitOnceColonSpace (stripEol raw) with
  | none => st
  | some p =>
    { skip := insertName st.skip p.1
      src := Source.remove st.src p.1
      counter := bumpStatus st.counter p.2 }

/-- `load_rec` over an already-split list of raw lines. -/
def loadRec (lines : List (List Char)) (src : Source) (c : Counter) : RecState :=
  lines.foldl processLine { skip := [], src := src, counter := c }

/-- `BufRead::read_line` iterated over the whole file content: each
yielded line includes its terminating `'\n'`; a final segment without a
newline is yielded as-is; the empty content yields nothing. -/
def readLines : List Char → List (List Char)
  | [] => []
  | c :: rest =>
    if c = '\n' then ['\n'] :: readLines rest
    else
      match readLines rest with
      | [] => [[c]]
      | l :: ls => (c :: l) :: ls

/-- `load_rec` on the raw character content of the record file. -/
def loadRecContent (content : List Char) (src : Source) (c : Counter) : RecState :=
  loadRec (readLines content) src c

/-- The status token written after `"<name>: "` by the `writeln!` calls:
`good`, `bad`, `n/a`, or `error: <message>`. -/
def renderOutcome : Outcome → List Char
  | .good => "good".data
  | .bad => "bad".data
  | .notAvailable => "n/a".data
  | .error msg => "error: ".data ++ msg

/-- The full record-file line written for one decided name:
`writeln!(rec, "\x7bname\x7d: \x7bstatus\x7d")`. -/
def appendRecLine (name : List Char) (oc : Outcome) : List Char :=
  name ++ ':' :: ' ' :: renderOutcome oc ++ ['\n']

/-- The mutable state captured by the transfer `write_function` closure:
the local file's read cursor and the sticky `good` flag. -/
structure CmpState where
  pos : Nat
  good : Bool
  deriving DecidableEq

/-- One invocation of the `write_function` closure on a received chunk
`data`: `read_exact` of `data.len()` bytes from the local file succeeds
exactly when that many bytes remain, advancing the cursor; on a short
file it consumes the remainder (cursor saturates at the length) and
fails, clearing `good`; on success `good` is also cleared when the chunk
differs from the bytes read. -/
def consumeChunk (content : List Nat) (s : CmpState) (data : List Nat) : CmpState :=
  if s.pos + data.length ≤ content.length then
    { pos := s.pos + data.length
      good := s.good && decide (data = (content.drop s.pos).take data.length) }
  else
    { pos := content.length, good := false }

/-- The closure state after the whole transfer delivered `chunks`. -/
def finalState (content : List Nat) (chunks : List (List Nat)) : CmpState :=
  chunks.foldl (consumeChunk content) { pos := 0, good := true }

/-- The Good/Bad classification after a transfer that completed without a
transport error: `good` additionally requires the final `stream_position`
to equal the file length (`if pos != len`). -/
def verify (content : List Nat) (chunks : List (List Nat)) : Outcome :=
  if (finalState content chunks).good ∧ (finalState content chunks).pos = content.length
  then Outcome.good else Outcome.bad

/-- The claim's reading of the streaming comparison, at starting cursor
`pos`: every chunk's local read of equal length succeeds (enough bytes
remain) and returns equal bytes. -/
def chunksAllMatch (content : List Nat) : Nat → List (List Nat) → Bool
  | _, [] => true
  | pos, c :: cs =>
    (decide (pos + c.length ≤ content.length)
        && decide (c = (content.drop pos).take c.length))
      && chunksAllMatch content (pos + c.length) cs

/-- The counter increment paired with each append site in `main`. -/
def tally (c : Counter) : Outcome → Counter
  | .good => { c with good := c.good + 1 }
  | .bad => { c with bad := c.bad + 1 }
  | .notAvailable => { c with na := c.na + 1 }
  | .error _ => { c with error := c.error + 1 }

/-- The transfer's result for one main-pass item, as decided by the
transport: a transport failure with curl's message, or completion with
the list of delivered chunks. -/
inductive Resp where
  | fail (msg : List Char)
  | chunks (cs : List (List Nat))

/-- One main-pass input item: a path that is not a regular file, or a
regular file with its base name, its byte content and the transport's
behaviour for its url. -/
inductive Item where
  | notFile
  | file (name : List Char) (content : List Nat) (resp : Resp)

/-- The name an item would be keyed by, when it is a regular file. -/
def Item.nameOf : Item → Option (List Char)
  | .notFile => none
  | .file n _ _ => some n

/-- The record appends of a run, as (name, outcome) pairs in append
order, together with the live source and counters. -/
structure RunState where
  src : Source
  counter : Counter
  appends : List (List Char × Outcome)

/-- One iteration of the main `for path_str in …` loop: skip non-files;
skip names in the replayed set; otherwise `Source::provide`, then either
`error: missing source`, a transport error, or the streamed Good/Bad
comparison — each appending one record line and bumping one counter. -/
def mainStep (skip : List (List Char)) (st : RunState) (it : Item) : RunState :=
  match it with
  | .notFile => st
  | .file name content resp =>
    if name ∈ skip then st
    else
      match Source.provide st.src name with
      | (none, src') =>
        { src := src'
          counter := tally st.counter (.error "missing source".data)
          appends := st.appends ++ [(name, .error "missing source".data)] }
      | (some _, src') =>
        match resp with
        | .fail msg =>
          { src := src'
            counter := tally st.counter (.error msg)
            appends := st.appends ++ [(name, .error msg)] }
        | .chunks cs =>
          { src := src'
            counter := tally st.counter (verify content cs)
            appends := st.appends ++ [(name, verify content cs)] }

/-- The probe's result as decided by the transport: failure with curl's
message, or completion with the final response code and effective url. -/
inductive ProbeResp where
  | fail (msg : List Char)
  | done (code : Nat) (effUrl : List Char)

/-- The probe-pass classification in `main`: a transport failure is an
error with curl's message; otherwise `error: available` exactly when
`code >= 200 && code < 300 && eff_url.contains(&name)`, else `n/a`. -/
def probeClassify (name : List Char) (r : ProbeResp) : Outcome :=
  match r with
  | .fail msg => .error msg
  | .done code effUrl =>
    if 200 ≤ code ∧ code < 300 ∧ containsSeq effUrl name = true then
      .error "available".data
    else .notAvailable

/-- One iteration of the probe `for (name, url) in src.into_rest()` loop:
classify, append one record line, bump one counter. -/
def probeStep (pEnv : List Char → List Char → ProbeResp) (st : RunState)
    (p : List Char × List Char) : RunState :=
  { st with
      counter := tally st.counter (probeClassify p.1 (pEnv p.1 p.2))
      appends := st.appends ++ [(p.1, probeClassify p.1 (pEnv p.1 p.2))] }

/-- A whole run after replay: the main pass over the input items followed
by the probe pass over whatever is left in the source.  `pEnv` is the
transport's behaviour for each probed (name, url). -/
def run (ld : RecState) (items : List Item)
    (pEnv : List Char → List Char → ProbeResp) : RunState :=
  let st1 := items.foldl (mainStep ld.skip) { src := ld.src, counter := ld.counter, appends := [] }
  (Source.intoRest st1.src).foldl (probeStep pEnv) st1

/-- The printed speed in KB/s: `len as f64 / start.elapsed().as_secs_f64()
/ 1024.0`, where `len` is the local file's length (rationals stand in for
the exactly-representable `f64` values of the claims). -/
def reportedSpeedKB (len : Nat) (elapsed : Rat) : Rat :=
  (len : Rat) / elapsed / 1024

/-- The value printed when the MB/s branch is taken: `speed / 1024.0`. -/
def reportedSpeedMB (len : Nat) (elapsed : Rat) : Rat :=
  reportedSpeedKB len elapsed / 1024

/-- The display switch: `if speed >= 1024.0` prints MB/s. -/
def shownInMB (len : Nat) (elapsed : Rat) : Prop :=
  1024 ≤ reportedSpeedKB len elapsed

/-- Total bytes delivered by the transport during one comparison. -/
def totalTransferred (chunks : List (List Nat)) : Nat :=
  (chunks.map List.length).sum

/-! ### Basic lemmas about the table operations -/

theorem lookupName_eraseName_self (m : Table) (n : List Char) :
    Table.lookupName (Table.eraseName m n) n = none := by
  induction m with
  | nil => rfl
  | cons p rest ih =>
    by_cases h : p.1 = n <;> simp [Table.eraseName, Table.lookupName, h, ih]

theorem lookupName_eraseName_of_none (m : Table) (n k : List Char)
    (h : Table.lookupName m n = none) :
    Table.lookupName (Table.eraseName m k) n = none := by
  induction m with
  | nil => rfl
  | cons p rest ih =>
    by_cases hp : p.1 = n
    · simp [Table.lookupName, hp] at h
    · by_cases hk : p.1 = k <;>
        simp_all [Table.eraseName, Table.lookupName, hp, hk]

theorem lookupName_eq_none_iff (m : Table) (n : List Char) :
    Table.lookupName m n = none ↔ n ∉ m.map Prod.fst := by
  induction m with
  | nil => simp [Table.lookupName]
  | cons p rest ih =>
    by_cases hp : p.1 = n <;> simp [Table.lookupName, hp, ih, Ne.symm, eq_comm]

theorem map_fst_eraseName (m : Table) (n : List Char) :
    (Table.eraseName m n).map Prod.fst = (m.map Prod.fst).filter (fun k => k ≠ n) := by
  induction m with
  | nil => rfl
  | cons p rest ih =>
    by_cases hp : p.1 = n <;> simp [Table.eraseName, List.filter_cons, hp, ih]

theorem keysNodup_eraseName (m : Table) (n : List Char)
    (h : (m.map Prod.fst).Nodup) : ((Table.eraseName m n).map Prod.fst).Nodup := by
  rw [map_fst_eraseName]; exact h.filter _

/-- C6: for a Table-backed source, resolving a contained name yields the
stored url the first time, and resolving the same name again on the
resulting source yields `none`: `provide` removes the entry it returns. -/
theorem c6_table_at_most_once (m : Table) (name url : List Char)
    (h : Table.lookupName m name = some url) :
    (Source.provide (.list m) name).1 = some url ∧
    (Source.provide (Source.provide (.list m) name).2 name).1 = none :=
  ⟨h, lookupName_eraseName_self m name⟩

theorem c6_table_at_most_once_witness :
    (Source.provide (.list [("a".data, "u".data)]) "a".data).1 = some "u".data ∧
    (Source.provide (Source.provide (.list [("a".data, "u".data)]) "a".data).2 "a".data).1
      = none :=
  c6_table_at_most_once [("a".data, "u".data)] "a".data "u".data (by decide)

/-- C7: a Template source always resolves, to the pattern with the marker
replaced by the name; its discard is a no-op; its remaining-set is empty;
and any number of resolutions leaves it unchanged. -/
theorem c7_template_inexhaustible (t name : List Char) (names : List (List Char)) :
    Source.provide (.template t) name = (some (replaceMarker t name), .template t) ∧
    Source.remove (.template t) name = .template t ∧
    Source.intoRest (.template t) = [] ∧
    names.foldl (fun s n => (Source.provide s n).2) (.template t) = Source.template t := by
  refine ⟨rfl, rfl, rfl, ?_⟩
  induction names with
  | nil => rfl
  | cons n ns ih => simpa [Source.provide] using ih

/-! ### Name derivation (C8) -/

theorem takeWhile_append_sat (p : Char → Bool) (xs ys : List Char)
    (h : ∀ x ∈ xs, p x = true) :
    (xs ++ ys).takeWhile p = xs ++ ys.takeWhile p := by
  induction xs with
  | nil => rfl
  | cons x xs ih =>
    have hx : p x = true := h x (List.mem_cons_self x xs)
    simp [List.takeWhile_cons, hx, ih fun a ha => h a (List.mem_cons_of_mem x ha)]

/-- C8: the derived name is the part after the last `'/'` (the whole
string when there is none), truncated before the first `'?'`; in
particular on the spec's two examples. -/
theorem c8_name_key :
    (∀ a b : List Char, '/' ∉ b →
        deriveName (a ++ '/' :: b) = b.takeWhile (fun c => c ≠ '?')) ∧
    (∀ s : List Char, '/' ∉ s →
        deriveName s = s.takeWhile (fun c => c ≠ '?')) ∧
    deriveName "https://host/path/file.bin?token=abc".data = "file.bin".data ∧
    deriveName "archive.tar.gz".data = "archive.tar.gz".data := by
  refine ⟨?_, ?_, by decide, by decide⟩
  · intro a b hb
    have h1 : (a ++ '/' :: b).reverse = b.reverse ++ ('/' :: a.reverse) := by
      simp
    have h2 : (b.reverse ++ ('/' :: a.reverse)).takeWhile (fun c => c ≠ '/')
        = b.reverse := by
      rw [takeWhile_append_sat _ _ _ (by intro x hx; simp at hx ⊢; rintro rfl; exact hb hx)]
      simp [List.takeWhile_cons]
    unfold deriveName
    rw [h1, h2, List.reverse_reverse]
  · intro s hs
    have h2 : s.reverse.takeWhile (fun c => c ≠ '/') = s.reverse := by
      rw [List.takeWhile_eq_self_iff]
      intro x hx
      simp at hx ⊢
      rintro rfl; exact hs hx
    unfold deriveName
    rw [h2, List.reverse_reverse]

theorem c8_name_key_witness :
    deriveName ("dir".data ++ '/' :: "file.bin?token=abc".data)
      = ("file.bin?token=abc".data).takeWhile (fun c => c ≠ '?') :=
  c8_name_key.1 "dir".data "file.bin?token=abc".data (by decide)

/-! ### Throughput (C9) -/

/-- C9 (counterexample): a comparison that completes without transport
error (here with zero delivered chunks against a one-byte local file,
outcome `bad`) reports a speed computed from the local file length, not
from the bytes transferred. -/
theorem c9_throughput_counterexample :
    verify [0] [] = Outcome.bad ∧
    reportedSpeedKB (List.length ([0] : List Nat)) 1
      ≠ (totalTransferred [] : Rat) / 1 / 1024 := by
  refine ⟨by decide, ?_⟩
  norm_num [reportedSpeedKB, totalTransferred]

/-- C9 (amended): the reported speed is the local file's byte length
divided by the elapsed seconds, in KB/s; equivalently it satisfies
`speed * (1024 * elapsed) = len`, the MB/s figure satisfies
`speedMB * (1024 * 1024 * elapsed) = len`, and the MB/s branch is taken
exactly when the length reaches `1024 * 1024 * elapsed` bytes, i.e. when
the KB/s value is at least 1024. -/
theorem c9_throughput_amended (len : Nat) (elapsed : Rat) (h : 0 < elapsed) :
    reportedSpeedKB len elapsed * (1024 * elapsed) = len ∧
    reportedSpeedMB len elapsed * (1024 * 1024 * elapsed) = len ∧
    (shownInMB len elapsed ↔ 1024 * 1024 * elapsed ≤ (len : Rat)) := by
  refine ⟨?_, ?_, ?_⟩
  · unfold reportedSpeedKB
    rw [div_div, mul_comm (1024 : Rat) elapsed]
    exact div_mul_cancel₀ _ (show elapsed * 1024 ≠ 0 by positivity)
  · unfold reportedSpeedMB reportedSpeedKB
    rw [div_div, div_div,
      show (1024 : Rat) * 1024 * elapsed = elapsed * (1024 * 1024) by ring]
    exact div_mul_cancel₀ _ (show elapsed * (1024 * 1024) ≠ 0 by positivity)
  · unfold shownInMB reportedSpeedKB
    rw [div_div, le_div_iff₀ (by positivity),
      show (1024 : Rat) * (elapsed * 1024) = 1024 * 1024 * elapsed by ring]

theorem c9_throughput_amended_witness :
    reportedSpeedKB 2097152 1 * (1024 * 1) = ((2097152 : Nat) : Rat) ∧
    reportedSpeedMB 2097152 1 * (1024 * 1024 * 1) = ((2097152 : Nat) : Rat) ∧
    (shownInMB 2097152 1 ↔ 1024 * 1024 * 1 ≤ ((2097152 : Nat) : Rat)) :=
  c9_throughput_amended 2097152 1 (by norm_num)

/-! ### The streaming comparator (C1) -/

theorem consumeChunk_le {content : List Nat} {s : CmpState} {c : List Nat}
    (h : s.pos + c.length ≤ content.length) :
    consumeChunk content s c =
      { pos := s.pos + c.length
        good := s.good && decide (c = (content.drop s.pos).take c.length) } := by
  unfold consumeChunk; rw [if_pos h]

theorem consumeChunk_gt {content : List Nat} {s : CmpState} {c : List Nat}
    (h : ¬ s.pos + c.length ≤ content.length) :
    consumeChunk content s c = { pos := content.length, good := false } := by
  unfold consumeChunk; rw [if_neg h]

theorem foldGood (content : List Nat) (chunks : List (List Nat)) :
    ∀ s : CmpState,
      (chunks.foldl (consumeChunk content) s).good = true ↔
        (s.good = true ∧ chunksAllMatch content s.pos chunks = true) := by
  induction chunks with
  | nil => intro s; simp [chunksAllMatch]
  | cons c cs ih =>
    intro s
    rw [List.foldl_cons, ih]
    by_cases h : s.pos + c.length ≤ content.length
    · rw [consumeChunk_le h]
      simp only [chunksAllMatch, Bool.and_eq_true, decide_eq_true_eq]
      simp only [h, true_and]
      tauto
    · rw [consumeChunk_gt h]
      simp only [chunksAllMatch, Bool.and_eq_true, decide_eq_true_eq]
      simp [h]

/-- C1: a transfer that completes without transport error is classified
`good` iff every received chunk's local read of equal length succeeded
with equal bytes and the final read position equals the file length; in
every other completed case it is `bad` — the classification never
produces an error outcome (in particular a short local file gives
`bad`). -/
theorem c1_comparator_good_iff (content : List Nat) (chunks : List (List Nat))
    (_hb : ∀ c ∈ chunks, c.length ≤ 16384) :
    (verify content chunks = Outcome.good ↔
      (chunksAllMatch content 0 chunks = true ∧
        (finalState content chunks).pos = content.length)) ∧
    (verify content chunks = Outcome.good ∨ verify content chunks = Outcome.bad) := by
  have hg : (finalState content chunks).good = true ↔
      (chunksAllMatch content 0 chunks = true) := by
    unfold finalState
    rw [foldGood content chunks { pos := 0, good := true }]
    simp
  constructor
  · constructor
    · intro hv
      unfold verify at hv
      split at hv
      · next hcond => exact ⟨hg.mp hcond.1, hcond.2⟩
      · simp at hv
    · rintro ⟨h1, h2⟩
      unfold verify
      rw [if_pos ⟨hg.mpr h1, h2⟩]
  · unfold verify
    split
    · left; rfl
    · right; rfl

theorem c1_comparator_good_iff_witness :
    (verify [1, 2] [[1], [2]] = Outcome.good ↔
      (chunksAllMatch [1, 2] 0 [[1], [2]] = true ∧
        (finalState [1, 2] [[1], [2]]).pos = List.length ([1, 2] : List Nat))) ∧
    (verify [1, 2] [[1], [2]] = Outcome.good ∨ verify [1, 2] [[1], [2]] = Outcome.bad) :=
  c1_comparator_good_iff [1, 2] [[1], [2]] (by decide)

/-! ### Ledger replay: line splitting and classification (C3) -/

theorem splitOnce_append (name : List Char) :
    ∀ rest : List Char, splitOnceColonSpace name = none →
      splitOnceColonSpace (name ++ ':' :: ' ' :: rest) = some (name, rest) := by
  induction name with
  | nil => intro rest _; simp [splitOnceColonSpace]
  | cons c name' ih =>
    intro rest h
    by_cases hc : c = ':' ∧ name'.head? = some ' '
    · simp [splitOnceColonSpace, hc] at h
    · have h' : splitOnceColonSpace name' = none := by
        rcases hs : splitOnceColonSpace name' with _ | p
        · rfl
        · simp [splitOnceColonSpace, hc, hs] at h
      have hcond : ¬ (c = ':' ∧ (name' ++ ':' :: ' ' :: rest).head? = some ' ') := by
        cases name' with
        | nil => rintro ⟨-, hx⟩; exact absurd (Option.some.inj hx) (by decide)
        | cons d t => simpa using hc
      simp only [splitOnceColonSpace, List.append_eq]
      rw [if_neg hcond, ih rest h']

theorem splitOnce_charac (l : List Char) :
    ∀ a b : List Char, splitOnceColonSpace l = some (a, b) →
      l = a ++ ':' :: ' ' :: b ∧ splitOnceColonSpace a = none := by
  induction l with
  | nil => intro a b h; simp [splitOnceColonSpace] at h
  | cons c rest ih =>
    intro a b h
    by_cases hc : c = ':' ∧ rest.head? = some ' '
    · obtain ⟨hc1, hc2⟩ := hc
      cases rest with
      | nil => exact absurd hc2 (by simp)
      | cons d t =>
        have hd : d = ' ' := Option.some.inj hc2
        subst hc1; subst hd
        simp [splitOnceColonSpace] at h
        obtain ⟨ha, hb⟩ := h
        subst ha; subst hb
        exact ⟨rfl, rfl⟩
    · rcases hs : splitOnceColonSpace rest with _ | p
      · simp [splitOnceColonSpace, hc, hs] at h
      · simp only [splitOnceColonSpace, if_neg hc, hs] at h
        obtain ⟨h1, h2⟩ := ih p.1 p.2 (by rw [hs])
        have ha : a = c :: p.1 := by
          cases h; rfl
        have hb : b = p.2 := by
          cases h; rfl
        subst ha; subst hb
        refine ⟨by simp [h1], ?_⟩
        have hcnd2 : ¬ (c = ':' ∧ p.1.head? = some ' ') := by
          cases hp : p.1 with
          | nil => rintro ⟨-, hx⟩; simp at hx
          | cons d t =>
            rintro ⟨hcc, hx⟩
            apply hc
            refine ⟨hcc, ?_⟩
            rw [h1, hp]
            simpa using hx
        simp only [splitOnceColonSpace, List.append_eq]
        rw [if_neg hcnd2, h2]



theorem bumpStatus_fields (c : Counter) (status : List Char) :
    (bumpStatus c status).good = c.good + (if status = "good".data then 1 else 0) ∧
    (bumpStatus c status).bad = c.bad + (if status = "bad".data then 1 else 0) ∧
    (bumpStatus c status).na = c.na + (if status = "n/a".data then 1 else 0) ∧
    (bumpStatus c status).error
      = c.error + (if leadsWith "error".data status = true then 1 else 0) := by
  unfold bumpStatus
  split_ifs <;> simp_all
  all_goals (rename_i hx; exact absurd hx (by decide))

theorem mem_insertName (s : List (List Char)) (n m : List Char) :
    m ∈ insertName s n ↔ (m ∈ s ∨ m = n) := by
  unfold insertName
  by_cases h : n ∈ s
  · simp only [if_pos h]
    constructor
    · exact Or.inl
    · rintro (hm | rfl)
      · exact hm
      · exact h
  · simp [if_neg h]

theorem hasName_remove_self (src : Source) (n : List Char) :
    Source.hasName (Source.remove src n) n = false := by
  cases src with
  | list m => simp [Source.remove, Source.hasName, lookupName_eraseName_self]
  | template t => rfl

/-- C3: replay splits each line at the first `": "` into name and status;
the name (which itself holds no `": "`) joins the skip set and is
discarded from the source, the `good`/`bad`/`n/a` counters bump exactly
on the matching literal status, the error counter bumps exactly on an
`error`-prefixed status, any other status bumps nothing, and a line with
no separator changes nothing — replay (a total function) never fails. -/
theorem c3_replay_line (st : RecState) (raw : List Char) :
    (splitOnceColonSpace (stripEol raw) = none → processLine st raw = st) ∧
    (∀ name status, splitOnceColonSpace (stripEol raw) = some (name, status) →
      stripEol raw = name ++ ':' :: ' ' :: status ∧
      splitOnceColonSpace name = none ∧
      (∀ m, m ∈ (processLine st raw).skip ↔ (m ∈ st.skip ∨ m = name)) ∧
      Source.hasName (processLine st raw).src name = false ∧
      (processLine st raw).counter.good
        = st.counter.good + (if status = "good".data then 1 else 0) ∧
      (processLine st raw).counter.bad
        = st.counter.bad + (if status = "bad".data then 1 else 0) ∧
      (processLine st raw).counter.na
        = st.counter.na + (if status = "n/a".data then 1 else 0) ∧
      (processLine st raw).counter.error
        = st.counter.error + (if leadsWith "error".data status = true then 1 else 0)) := by
  constructor
  · intro h
    unfold processLine
    rw [h]
  · intro name status h
    obtain ⟨hline, hname⟩ := splitOnce_charac (stripEol raw) name status h
    have hp : processLine st raw =
        { skip := insertName st.skip name
          src := Source.remove st.src name
          counter := bumpStatus st.counter status } := by
      unfold processLine; rw [h]
    obtain ⟨g1, g2, g3, g4⟩ := bumpStatus_fields st.counter status
    rw [hp]
    exact ⟨hline, hname, fun m => mem_insertName st.skip name m,
      hasName_remove_self st.src name, g1, g2, g3, g4⟩

theorem c3_replay_line_witness :
    (processLine { skip := [], src := Source.template [], counter := ⟨0, 0, 0, 0⟩ }
        "file.bin: good\r\n".data).counter.good = 1 := by
  have h := (c3_replay_line
      { skip := [], src := Source.template [], counter := ⟨0, 0, 0, 0⟩ }
      "file.bin: good\r\n".data).2 "file.bin".data "good".data (by decide)
  rw [h.2.2.2.2.1, if_pos rfl]

/-! ### Append/replay round trip (C10) -/

theorem readLines_single (l : List Char) (h : '\n' ∉ l) :
    readLines (l ++ ['\n']) = [l ++ ['\n']] := by
  induction l with
  | nil => rfl
  | cons c t ih =>
    have hc : ¬ c = '\n' := fun hh => h (hh ▸ List.mem_cons_self c t)
    have ht : '\n' ∉ t := fun hh => h (List.mem_cons_of_mem c hh)
    simp only [List.cons_append, readLines, List.append_eq, if_neg hc, ih ht]

theorem stripEol_concat (l : List Char) :
    stripEol (l ++ ['\n'])
      = if l.getLast? = some '\r' then l.dropLast else l := by
  unfold stripEol
  rw [if_pos (List.getLast?_concat l), List.dropLast_concat]

theorem getLast_sep (name s : List Char) (h : s ≠ []) :
    (name ++ ':' :: ' ' :: s).getLast? = s.getLast? := by
  rw [show name ++ ':' :: ' ' :: s = (name ++ [':', ' ']) ++ s by simp]
  exact List.getLast?_append_of_ne_nil _ h

theorem dropLast_sep (name s : List Char) (h : s ≠ []) :
    (name ++ ':' :: ' ' :: s).dropLast = name ++ ':' :: ' ' :: s.dropLast := by
  rw [show name ++ ':' :: ' ' :: s = (name ++ [':', ' ']) ++ s by simp,
    List.dropLast_append_of_ne_nil _ h]
  simp

theorem replay_single (src0 : Source) (c0 : Counter) (name status raw : List Char)
    (h1 : splitOnceColonSpace name = none)
    (hstrip : stripEol raw = name ++ ':' :: ' ' :: status) :
    processLine { skip := [], src := src0, counter := c0 } raw
      = { skip := [name], src := Source.remove src0 name
          counter := bumpStatus c0 status } := by
  unfold processLine
  rw [hstrip, splitOnce_append name status h1]
  simp [insertName]

theorem bumpStatus_err (c0 : Counter) (x : List Char) :
    bumpStatus c0 ("error: ".data ++ x) = { c0 with error := c0.error + 1 } := by
  unfold bumpStatus
  rw [if_neg (by simp), if_neg (by simp), if_neg (by simp),
    if_pos (show leadsWith "error".data ("error: ".data ++ x) = true from rfl)]

/-- C10 (amended): replaying a record file holding exactly the line that
one append writes for (name, outcome) — for a name with no `": "` and no
newline, and an error message with no newline — yields exactly that name
in the skip set, removes exactly it from the source, and bumps exactly
the outcome's counter bucket. -/
theorem c10_append_replay_amended (name : List Char) (oc : Outcome)
    (src0 : Source) (c0 : Counter)
    (h1 : splitOnceColonSpace name = none)
    (h2 : '\n' ∉ name)
    (h3 : ∀ m, oc = Outcome.error m → '\n' ∉ m) :
    loadRecContent (appendRecLine name oc) src0 c0 =
      { skip := [name], src := Source.remove src0 name, counter := tally c0 oc } := by
  have hrnl : '\n' ∉ renderOutcome oc := by
    cases oc with
    | good => decide
    | bad => decide
    | notAvailable => decide
    | error msg =>
      intro hm
      rcases List.mem_append.mp hm with h | h
      · exact absurd h (by decide)
      · exact h3 msg rfl h
  have hbody : '\n' ∉ name ++ ':' :: ' ' :: renderOutcome oc := by
    intro hm
    rcases List.mem_append.mp hm with h | h
    · exact h2 h
    · rcases h with _ | ⟨_, h⟩
      · rcases h with _ | ⟨_, h⟩
        exact hrnl h
  have happ : appendRecLine name oc
      = (name ++ ':' :: ' ' :: renderOutcome oc) ++ ['\n'] := by
    unfold appendRecLine; simp
  rw [happ]
  unfold loadRecContent loadRec
  rw [readLines_single _ hbody]
  rw [List.foldl_cons, List.foldl_nil]
  cases oc with
  | good =>
    simp only [renderOutcome]
    have hstrip : stripEol ((name ++ ':' :: ' ' :: "good".data) ++ ['\n'])
        = name ++ ':' :: ' ' :: "good".data := by
      rw [stripEol_concat, if_neg]
      rw [getLast_sep name "good".data (by decide)]
      decide
    rw [replay_single src0 c0 name "good".data _ h1 hstrip]
    unfold bumpStatus tally
    rw [if_pos rfl]
  | bad =>
    simp only [renderOutcome]
    have hstrip : stripEol ((name ++ ':' :: ' ' :: "bad".data) ++ ['\n'])
        = name ++ ':' :: ' ' :: "bad".data := by
      rw [stripEol_concat, if_neg]
      rw [getLast_sep name "bad".data (by decide)]
      decide
    rw [replay_single src0 c0 name "bad".data _ h1 hstrip]
    unfold bumpStatus tally
    rw [if_neg (show ¬("bad".data = "good".data) by decide), if_pos rfl]
  | notAvailable =>
    simp only [renderOutcome]
    have hstrip : stripEol ((name ++ ':' :: ' ' :: "n/a".data) ++ ['\n'])
        = name ++ ':' :: ' ' :: "n/a".data := by
      rw [stripEol_concat, if_neg]
      rw [getLast_sep name "n/a".data (by decide)]
      decide
    rw [replay_single src0 c0 name "n/a".data _ h1 hstrip]
    unfold bumpStatus tally
    rw [if_neg (show ¬("n/a".data = "good".data) by decide),
      if_neg (show ¬("n/a".data = "bad".data) by decide), if_pos rfl]
  | error msg =>
    simp only [renderOutcome]
    by_cases hcr : ("error: ".data ++ msg).getLast? = some '\r'
    · have hmsg : msg ≠ [] := by
        intro hh; subst hh; revert hcr; decide
      have hstrip : stripEol ((name ++ ':' :: ' ' :: ("error: ".data ++ msg)) ++ ['\n'])
          = name ++ ':' :: ' ' :: ("error: ".data ++ msg.dropLast) := by
        rw [stripEol_concat, if_pos]
        · rw [dropLast_sep name ("error: ".data ++ msg) (by simp)]
          rw [show ("error: ".data ++ msg).dropLast = "error: ".data ++ msg.dropLast from
            List.dropLast_append_of_ne_nil _ hmsg]
        · rw [getLast_sep name ("error: ".data ++ msg) (by simp)]
          exact hcr
      rw [replay_single src0 c0 name ("error: ".data ++ msg.dropLast) _ h1 hstrip]
      rw [bumpStatus_err]
      rfl
    · have hstrip : stripEol ((name ++ ':' :: ' ' :: ("error: ".data ++ msg)) ++ ['\n'])
          = name ++ ':' :: ' ' :: ("error: ".data ++ msg) := by
        rw [stripEol_concat, if_neg]
        rw [getLast_sep name ("error: ".data ++ msg) (by simp)]
        exact hcr
      rw [replay_single src0 c0 name ("error: ".data ++ msg) _ h1 hstrip]
      rw [bumpStatus_err]
      rfl



theorem c10_append_replay_amended_witness :
    loadRecContent (appendRecLine "f".data Outcome.good) (Source.template []) ⟨0, 0, 0, 0⟩
      = { skip := ["f".data], src := Source.remove (Source.template []) "f".data
          counter := tally ⟨0, 0, 0, 0⟩ Outcome.good } :=
  c10_append_replay_amended "f".data Outcome.good (Source.template []) ⟨0, 0, 0, 0⟩
    (by decide) (by decide) (fun m h => nomatch h)

/-- C10 (counterexample): an error message containing a newline makes the
single append span two record lines, so its replay adds a second name to
the skip set and bumps the `good` counter as well. -/
theorem c10_append_replay_counterexample :
    (loadRecContent (appendRecLine "n".data (Outcome.error "a\nz: good".data))
        (Source.template []) ⟨0, 0, 0, 0⟩).counter.good = 1 ∧
    (loadRecContent (appendRecLine "n".data (Outcome.error "a\nz: good".data))
        (Source.template []) ⟨0, 0, 0, 0⟩).skip = ["n".data, "z".data] := by
  constructor <;> decide

/-! ### Probe classification (C5) -/

theorem leadsWith_iff (p : List Char) : ∀ l, leadsWith p l = true ↔ ∃ t, l = p ++ t := by
  induction p with
  | nil => intro l; simp [leadsWith]
  | cons a ps ih =>
    intro l
    cases l with
    | nil => simp [leadsWith]
    | cons c cs =>
      simp only [leadsWith, Bool.and_eq_true, beq_iff_eq, ih cs, List.cons_append,
        List.cons.injEq]
      constructor
      · rintro ⟨rfl, t, rfl⟩; exact ⟨t, rfl, rfl⟩
      · rintro ⟨t, h1, h2⟩; exact ⟨h1.symm, t, h2⟩

theorem containsSeq_iff (needle : List Char) :
    ∀ hay, containsSeq hay needle = true ↔ ∃ pre post, hay = pre ++ needle ++ post := by
  intro hay
  induction hay with
  | nil =>
    simp only [containsSeq, leadsWith_iff]
    constructor
    · rintro ⟨t, h⟩
      rcases List.append_eq_nil.mp h.symm with ⟨h1, h2⟩
      exact ⟨[], [], by simp [h1, h2]⟩
    · rintro ⟨pre, post, h⟩
      rcases List.append_eq_nil.mp h.symm with ⟨h1, h2⟩
      rcases List.append_eq_nil.mp h1 with ⟨h3, h4⟩
      exact ⟨[], by simp [h4]⟩
  | cons c t ih =>
    simp only [containsSeq, Bool.or_eq_true, leadsWith_iff, ih]
    constructor
    · rintro (⟨rest, h⟩ | ⟨pre, post, h⟩)
      · exact ⟨[], rest, by simp [h]⟩
      · exact ⟨c :: pre, post, by simp [h]⟩
    · rintro ⟨pre, post, h⟩
      cases pre with
      | nil => exact Or.inl ⟨post, by simpa using h⟩
      | cons d pr =>
        refine Or.inr ?_
        rw [List.cons_append, List.cons_append] at h
        injection h with h1 h2
        exact ⟨pr, post, h2⟩

/-- C5: a probe's transport failure yields the transport's error message;
a completed probe yields `error: available` exactly when the final status
code is in 200..299 and the probed name occurs as a substring of the
final effective url, and `n/a` in every other completed case. -/
theorem c5_probe_classification (name msg effUrl : List Char) (code : Nat) :
    probeClassify name (.fail msg) = Outcome.error msg ∧
    (probeClassify name (.done code effUrl) = Outcome.error "available".data ↔
      (200 ≤ code ∧ code < 300 ∧ ∃ pre post, effUrl = pre ++ name ++ post)) ∧
    (probeClassify name (.done code effUrl) = Outcome.notAvailable ↔
      ¬ (200 ≤ code ∧ code < 300 ∧ ∃ pre post, effUrl = pre ++ name ++ post)) := by
  refine ⟨rfl, ?_, ?_⟩
  · simp only [probeClassify]
    by_cases h : 200 ≤ code ∧ code < 300 ∧ containsSeq effUrl name = true
    · rw [if_pos h]
      exact iff_of_true rfl ⟨h.1, h.2.1, (containsSeq_iff name effUrl).mp h.2.2⟩
    · rw [if_neg h]
      exact iff_of_false (by simp)
        (fun hc => h ⟨hc.1, hc.2.1, (containsSeq_iff name effUrl).mpr hc.2.2⟩)
  · simp only [probeClassify]
    by_cases h : 200 ≤ code ∧ code < 300 ∧ containsSeq effUrl name = true
    · rw [if_pos h]
      exact iff_of_false (by simp)
        (fun hc => hc ⟨h.1, h.2.1, (containsSeq_iff name effUrl).mp h.2.2⟩)
    · rw [if_neg h]
      exact iff_of_true rfl
        (fun hc => h ⟨hc.1, hc.2.1, (containsSeq_iff name effUrl).mpr hc.2.2⟩)

/-! ### Whole-run bookkeeping (C2, C4) -/

/-! helper equations for processLine and mainStep -/

theorem processLine_none {st : RecState} {raw : List Char}
    (h : splitOnceColonSpace (stripEol raw) = none) : processLine st raw = st := by
  unfold processLine; rw [h]

theorem processLine_some {st : RecState} {raw : List Char} {p : List Char × List Char}
    (h : splitOnceColonSpace (stripEol raw) = some p) :
    processLine st raw =
      { skip := insertName st.skip p.1
        src := Source.remove st.src p.1
        counter := bumpStatus st.counter p.2 } := by
  unfold processLine; rw [h]

theorem hasName_remove_of_false {src : Source} {n : List Char} (k : List Char)
    (h : Source.hasName src n = false) :
    Source.hasName (Source.remove src k) n = false := by
  cases src with
  | list m =>
    have hnone : Table.lookupName m n = none := by
      cases hl : Table.lookupName m n with
      | none => rfl
      | some v => rw [Source.hasName, hl] at h; simp at h
    simp [Source.remove, Source.hasName,
      lookupName_eraseName_of_none m n k hnone]
  | template t => rfl

theorem hasName_provide_of_false {src : Source} {n : List Char} (k : List Char)
    (h : Source.hasName src n = false) :
    Source.hasName (Source.provide src k).2 n = false := by
  cases src with
  | list m =>
    have hnone : Table.lookupName m n = none := by
      cases hl : Table.lookupName m n with
      | none => rfl
      | some v => rw [Source.hasName, hl] at h; simp at h
    simp [Source.provide, Source.hasName,
      lookupName_eraseName_of_none m n k hnone]
  | template t => rfl

theorem hasName_provide_self (src : Source) (n : List Char) :
    Source.hasName (Source.provide src n).2 n = false := by
  cases src with
  | list m => simp [Source.provide, Source.hasName, lookupName_eraseName_self]
  | template t => rfl

theorem loadRec_skip_not_hasName (lines : List (List Char)) :
    ∀ st : RecState, (∀ n ∈ st.skip, Source.hasName st.src n = false) →
      ∀ n ∈ (lines.foldl processLine st).skip,
        Source.hasName (lines.foldl processLine st).src n = false := by
  induction lines with
  | nil => intro st h; exact h
  | cons raw rest ih =>
    intro st h
    rw [List.foldl_cons]
    apply ih
    rcases hsp : splitOnceColonSpace (stripEol raw) with _ | p
    · rw [processLine_none hsp]; exact h
    · rw [processLine_some hsp]
      intro n hn
      rcases (mem_insertName st.skip p.1 n).mp hn with hn | rfl
      · exact hasName_remove_of_false p.1 (h n hn)
      · exact hasName_remove_self st.src _

/-! mainStep equations -/

/-- The outcome `main` records for one processed file: `missing source`
when the source has no url, the transport's error on failure, and the
streamed comparison otherwise. -/
def itemOutcome (src : Source) (name : List Char) (content : List Nat)
    (resp : Resp) : Outcome :=
  match (Source.provide src name).1 with
  | none => .error "missing source".data
  | some _ =>
    match resp with
    | .fail msg => .error msg
    | .chunks cs => verify content cs

theorem mainStep_notFile (skip : List (List Char)) (st : RunState) :
    mainStep skip st .notFile = st := rfl

theorem mainStep_mem {skip : List (List Char)} {st : RunState}
    {name : List Char} {content : List Nat} {resp : Resp} (h : name ∈ skip) :
    mainStep skip st (.file name content resp) = st := by
  simp only [mainStep]; rw [if_pos h]

theorem mainStep_new {skip : List (List Char)} {st : RunState}
    {name : List Char} {content : List Nat} {resp : Resp} (h : name ∉ skip) :
    mainStep skip st (.file name content resp)
      = { src := (Source.provide st.src name).2
          counter := tally st.counter (itemOutcome st.src name content resp)
          appends := st.appends ++ [(name, itemOutcome st.src name content resp)] } := by
  simp only [mainStep]
  rw [if_neg h]
  rcases hp : Source.provide st.src name with ⟨o, src'⟩
  cases o with
  | none => simp [itemOutcome, hp]
  | some u => cases resp <;> simp [itemOutcome, hp]

theorem mainFold_no_append (skip : List (List Char)) (n : List Char) (hn : n ∈ skip) :
    ∀ (items : List Item) (st : RunState),
      n ∉ st.appends.map Prod.fst → Source.hasName st.src n = false →
      (n ∉ ((items.foldl (mainStep skip) st).appends.map Prod.fst) ∧
        Source.hasName (items.foldl (mainStep skip) st).src n = false) := by
  intro items
  induction items with
  | nil => intro st h1 h2; exact ⟨h1, h2⟩
  | cons it rest ih =>
    intro st h1 h2
    rw [List.foldl_cons]
    cases it with
    | notFile => exact ih st h1 h2
    | file name content resp =>
      by_cases hmem : name ∈ skip
      · rw [mainStep_mem hmem]
        exact ih st h1 h2
      · rw [mainStep_new hmem]
        apply ih
        · simp only [List.map_append, List.map_cons, List.map_nil]
          intro hx
          rcases List.mem_append.mp hx with hx | hx
          · exact h1 hx
          · simp at hx
            subst hx
            exact hmem hn
        · exact hasName_provide_of_false name h2

theorem probeFold_appends (pEnv : List Char → List Char → ProbeResp)
    (pairs : List (List Char × List Char)) :
    ∀ st : RunState,
      (pairs.foldl (probeStep pEnv) st).appends
        = st.appends ++ pairs.map (fun p => (p.1, probeClassify p.1 (pEnv p.1 p.2))) := by
  induction pairs with
  | nil => intro st; simp
  | cons p rest ih =>
    intro st
    rw [List.foldl_cons, ih]
    simp [probeStep]

theorem not_mem_intoRest_of_hasName_false (src : Source) (n : List Char)
    (h : Source.hasName src n = false) :
    n ∉ (Source.intoRest src).map Prod.fst := by
  cases src with
  | list m =>
    have hnone : Table.lookupName m n = none := by
      cases hl : Table.lookupName m n with
      | none => rfl
      | some v => rw [Source.hasName, hl] at h; simp at h
    exact (lookupName_eq_none_iff m n).mp hnone
  | template t => simp [Source.intoRest]



theorem mainFold_counter (skip : List (List Char)) :
    ∀ (items : List Item) (st : RunState) (base : Counter),
      st.counter = st.appends.foldl (fun c p => tally c p.2) base →
      (items.foldl (mainStep skip) st).counter
        = ((items.foldl (mainStep skip) st).appends).foldl
            (fun c p => tally c p.2) base := by
  intro items
  induction items with
  | nil => intro st base h; exact h
  | cons it rest ih =>
    intro st base h
    rw [List.foldl_cons]
    cases it with
    | notFile => exact ih st base h
    | file name content resp =>
      by_cases hmem : name ∈ skip
      · rw [mainStep_mem hmem]; exact ih st base h
      · rw [mainStep_new hmem]
        apply ih
        simp [List.foldl_append, ← h]

theorem probeFold_counter (pEnv : List Char → List Char → ProbeResp) :
    ∀ (pairs : List (List Char × List Char)) (st : RunState) (base : Counter),
      st.counter = st.appends.foldl (fun c p => tally c p.2) base →
      (pairs.foldl (probeStep pEnv) st).counter
        = ((pairs.foldl (probeStep pEnv) st).appends).foldl
            (fun c p => tally c p.2) base := by
  intro pairs
  induction pairs with
  | nil => intro st base h; exact h
  | cons p rest ih =>
    intro st base h
    rw [List.foldl_cons]
    apply ih
    simp [probeStep, List.foldl_append, ← h]

/-- C2: any name that replay placed in the skip set is never appended to
the record file by the following run — neither by the main pass (its
files are skipped) nor by the probe pass (replay discarded it from the
source) — and the run's counters are exactly the replayed counters folded
over the run's own appends, so a skipped name contributes no counter
increment either. -/
theorem c2_idempotent_resume (lines : List (List Char)) (src0 : Source) (c0 : Counter)
    (items : List Item) (pEnv : List Char → List Char → ProbeResp) (n : List Char)
    (h : n ∈ (loadRec lines src0 c0).skip) :
    n ∉ ((run (loadRec lines src0 c0) items pEnv).appends.map Prod.fst) ∧
    (run (loadRec lines src0 c0) items pEnv).counter
      = ((run (loadRec lines src0 c0) items pEnv).appends.foldl
          (fun c p => tally c p.2) (loadRec lines src0 c0).counter) := by
  have hsrc : Source.hasName (loadRec lines src0 c0).src n = false :=
    loadRec_skip_not_hasName lines _
      (fun x hx => absurd hx (List.not_mem_nil x)) n h
  constructor
  · unfold run
    obtain ⟨h1, h2⟩ := mainFold_no_append (loadRec lines src0 c0).skip n h items
      { src := (loadRec lines src0 c0).src
        counter := (loadRec lines src0 c0).counter, appends := [] }
      (by simp) hsrc
    rw [probeFold_appends]
    simp only [List.map_append]
    intro hmem
    rcases List.mem_append.mp hmem with hm | hm
    · exact h1 hm
    · have hm' : n ∈ (Source.intoRest
          (items.foldl (mainStep (loadRec lines src0 c0).skip)
            { src := (loadRec lines src0 c0).src
              counter := (loadRec lines src0 c0).counter
              appends := [] }).src).map Prod.fst := by
        simpa [List.map_map, Function.comp] using hm
      exact not_mem_intoRest_of_hasName_false _ _ h2 hm'
  · unfold run
    apply probeFold_counter
    apply mainFold_counter
    rfl

theorem c2_idempotent_resume_witness :
    "a".data ∉ ((run (loadRec ["a: good\n".data] (Source.list [("a".data, "u".data)])
        ⟨0, 0, 0, 0⟩) [.file "a".data [] (.chunks [])]
        (fun _ _ => ProbeResp.fail [])).appends.map Prod.fst) ∧
    (run (loadRec ["a: good\n".data] (Source.list [("a".data, "u".data)])
        ⟨0, 0, 0, 0⟩) [.file "a".data [] (.chunks [])]
        (fun _ _ => ProbeResp.fail [])).counter
      = ((run (loadRec ["a: good\n".data] (Source.list [("a".data, "u".data)])
          ⟨0, 0, 0, 0⟩) [.file "a".data [] (.chunks [])]
          (fun _ _ => ProbeResp.fail [])).appends.foldl
            (fun c p => tally c p.2)
            (loadRec ["a: good\n".data] (Source.list [("a".data, "u".data)])
              ⟨0, 0, 0, 0⟩).counter) :=
  c2_idempotent_resume ["a: good\n".data] (Source.list [("a".data, "u".data)])
    ⟨0, 0, 0, 0⟩ [.file "a".data [] (.chunks [])] (fun _ _ => ProbeResp.fail [])
    "a".data (by decide)



theorem keysNodup_provide (src : Source) (n : List Char)
    (h : Source.keysNodup src) : Source.keysNodup (Source.provide src n).2 := by
  cases src with
  | list m => exact keysNodup_eraseName m n h
  | template t => trivial

theorem keysNodup_remove (src : Source) (n : List Char)
    (h : Source.keysNodup src) : Source.keysNodup (Source.remove src n) := by
  cases src with
  | list m => exact keysNodup_eraseName m n h
  | template t => trivial

theorem loadRec_keysNodup (lines : List (List Char)) :
    ∀ st : RecState, Source.keysNodup st.src →
      Source.keysNodup (lines.foldl processLine st).src := by
  induction lines with
  | nil => intro st h; exact h
  | cons raw rest ih =>
    intro st h
    rw [List.foldl_cons]
    apply ih
    rcases hsp : splitOnceColonSpace (stripEol raw) with _ | p
    · rw [processLine_none hsp]; exact h
    · rw [processLine_some hsp]; exact keysNodup_remove st.src p.1 h

theorem intoRest_keys_nodup (src : Source) (h : Source.keysNodup src) :
    ((Source.intoRest src).map Prod.fst).Nodup := by
  cases src with
  | list m => exact h
  | template t => exact List.nodup_nil

theorem mainFold_nodup (skip : List (List Char)) :
    ∀ (items : List Item) (st : RunState),
      (st.appends.map Prod.fst).Nodup →
      Source.keysNodup st.src →
      (∀ n ∈ st.appends.map Prod.fst, Source.hasName st.src n = false) →
      (∀ n ∈ items.filterMap Item.nameOf, n ∉ st.appends.map Prod.fst) →
      (items.filterMap Item.nameOf).Nodup →
      (((items.foldl (mainStep skip) st).appends.map Prod.fst).Nodup ∧
        Source.keysNodup (items.foldl (mainStep skip) st).src ∧
        (∀ n ∈ (items.foldl (mainStep skip) st).appends.map Prod.fst,
          Source.hasName (items.foldl (mainStep skip) st).src n = false)) := by
  intro items
  induction items with
  | nil => intro st h1 h2 h3 _ _; exact ⟨h1, h2, h3⟩
  | cons it rest ih =>
    intro st h1 h2 h3 h4 h5
    rw [List.foldl_cons]
    cases it with
    | notFile =>
      rw [mainStep_notFile]
      apply ih st h1 h2 h3
      · intro n hn
        exact h4 n (by simpa [List.filterMap_cons, Item.nameOf] using hn)
      · simpa [List.filterMap_cons, Item.nameOf] using h5
    | file name content resp =>
      have hfm : (Item.file name content resp :: rest).filterMap Item.nameOf
          = name :: rest.filterMap Item.nameOf := by
        simp [List.filterMap_cons, Item.nameOf]
      rw [hfm] at h4 h5
      by_cases hmem : name ∈ skip
      · rw [mainStep_mem hmem]
        apply ih st h1 h2 h3
        · intro n hn
          exact h4 n (List.mem_cons_of_mem name hn)
        · exact (List.nodup_cons.mp h5).2
      · rw [mainStep_new hmem]
        apply ih
        · simp only [List.map_append, List.map_cons, List.map_nil]
          rw [List.nodup_append]
          refine ⟨h1, List.nodup_singleton name, ?_⟩
          intro x hx hx'
          simp at hx'
          exact h4 name (List.mem_cons_self name _) (hx' ▸ hx)
        · exact keysNodup_provide st.src name h2
        · intro n hn
          simp only [List.map_append, List.map_cons, List.map_nil] at hn
          rcases List.mem_append.mp hn with hn | hn
          · exact hasName_provide_of_false name (h3 n hn)
          · simp at hn
            rw [hn]
            exact hasName_provide_self st.src name
        · intro n hn
          simp only [List.map_append, List.map_cons, List.map_nil]
          intro hx
          rcases List.mem_append.mp hx with hx | hx
          · exact h4 n (List.mem_cons_of_mem name hn) hx
          · simp at hx
            exact (List.nodup_cons.mp h5).1 (hx ▸ hn)
        · exact (List.nodup_cons.mp h5).2



/-- C4 (amended): provided the regular-file inputs have pairwise-distinct
names and the source table has distinct keys (the map invariant), a
single run appends at most one record line — and so decides at most one
outcome — per name, across the main pass and the probe pass together. -/
theorem c4_once_per_name_amended (lines : List (List Char)) (src0 : Source)
    (c0 : Counter) (items : List Item) (pEnv : List Char → List Char → ProbeResp)
    (h1 : (items.filterMap Item.nameOf).Nodup)
    (h2 : Source.keysNodup src0) :
    ((run (loadRec lines src0 c0) items pEnv).appends.map Prod.fst).Nodup := by
  have hld : Source.keysNodup (loadRec lines src0 c0).src :=
    loadRec_keysNodup lines { skip := [], src := src0, counter := c0 } h2
  unfold run
  obtain ⟨g1, g2, g3⟩ := mainFold_nodup (loadRec lines src0 c0).skip items
    { src := (loadRec lines src0 c0).src
      counter := (loadRec lines src0 c0).counter, appends := [] }
    (by simp) hld (by simp) (by simp) h1
  rw [probeFold_appends, List.map_append, List.nodup_append]
  refine ⟨g1, ?_, ?_⟩
  · have hkeys := intoRest_keys_nodup _ g2
    simpa [List.map_map, Function.comp] using hkeys
  · intro x hx hx'
    have hx'' : x ∈ (Source.intoRest
        (items.foldl (mainStep (loadRec lines src0 c0).skip)
          { src := (loadRec lines src0 c0).src
            counter := (loadRec lines src0 c0).counter
            appends := [] }).src).map Prod.fst := by
      simpa [List.map_map, Function.comp] using hx'
    exact absurd hx'' (not_mem_intoRest_of_hasName_false _ _ (g3 x hx))

theorem c4_once_per_name_amended_witness :
    ((run (loadRec [] (Source.list [("a".data, "u".data), ("b".data, "v".data)])
        ⟨0, 0, 0, 0⟩) [.file "a".data [] (.chunks []), .notFile]
        (fun _ _ => ProbeResp.done 200 "w".data)).appends.map Prod.fst).Nodup :=
  c4_once_per_name_amended [] (Source.list [("a".data, "u".data), ("b".data, "v".data)])
    ⟨0, 0, 0, 0⟩ [.file "a".data [] (.chunks []), .notFile]
    (fun _ _ => ProbeResp.done 200 "w".data) (by decide) (by decide)

/-- C4 (counterexample): two input files sharing the basename `x` against
a Template source are both processed (the replay skip set does not grow
during the run), producing two record lines for the same name in one
run. -/
theorem c4_once_per_name_counterexample :
    ¬ ((run (loadRec [] (Source.template "u".data) ⟨0, 0, 0, 0⟩)
        [.file "x".data [] (.chunks []), .file "x".data [] (.chunks [])]
        (fun _ _ => ProbeResp.fail [])).appends.map Prod.fst).Nodup := by
  decide

end Howis
